import Mathlib

/-!
Verification of the YAML inspector (`scripts/deploy/yaml_log.py`).

The development shallowly embeds the program's pure core:
* the parsed document tree (`Yaml`) and its work-list flattening (`flatten`),
* the display-width-aware truncation (`truncate_display`),
* key-path rendering, row assembly and the per-run file loop,
* the `.yaml`/`.yml` discovery filter and the sorted processing order.

External collaborators (the YAML parser, the `wcwidth` character-width
library, the filesystem) are modelled as black boxes exactly as the
specification describes them.
-/

namespace YamlLog

/-- A key-path segment: a mapping key or a 0-based sequence index
(`pth + [k]` / `pth + [i]` in `flatten`). -/
inductive Seg where
| key (k : String)
| idx (i : Nat)
deriving DecidableEq, Repr

/-- Terminal (non-dict, non-list) values the safe YAML loader can produce as
a document or leaf: null, booleans, integers, floats (abstracted as
rationals), strings, bytes from `!!binary`, Python sets from `!!set` (a leaf
for `flatten`, since a set is neither a dict nor a list; its elements are
modelled like mapping keys), and dates/datetimes from `!!timestamp`
(collapsed into one always-truthy constructor).  The float, bytes, set and
timestamp string renderings are abstracted; no claim observes them, only
their truthiness and type tags. -/
inductive Scalar where
| null
| bool (b : Bool)
| int (n : Int)
| float (q : Rat)
| str (s : String)
| bytes (bs : List Nat)
| pyset (elems : List String)
| date (y m d : Nat)
deriving DecidableEq, Repr

/-- The parsed document tree: mappings (insertion-ordered key/value pairs),
sequences, and scalars, exactly the shapes `flatten` dispatches on via
`isinstance(node, dict)` / `isinstance(node, list)`. -/
inductive Yaml where
| map (entries : List (String × Yaml))
| seq (items : List Yaml)
| scalar (s : Scalar)

/-- Modelled from the spec: the external `wcwidth` collaborator is a black box
mapping a character to its terminal column width — wide glyphs (East-Asian
characters, emoji) report 2, combining and zero-width characters report 0,
ordinary characters report 1. -/
def wcwidth (c : Char) : Nat :=
  let n := c.toNat
  if (0x0300 ≤ n ∧ n ≤ 0x036F) ∨ (0x200B ≤ n ∧ n ≤ 0x200F) ∨ n = 0xFE0F then 0
  else if (0x1100 ≤ n ∧ n ≤ 0x115F) ∨ (0x2E80 ≤ n ∧ n ≤ 0x303E) ∨
      (0x3041 ≤ n ∧ n ≤ 0x33FF) ∨ (0x3400 ≤ n ∧ n ≤ 0x4DBF) ∨
      (0x4E00 ≤ n ∧ n ≤ 0x9FFF) ∨ (0xAC00 ≤ n ∧ n ≤ 0xD7A3) ∨
      (0xF900 ≤ n ∧ n ≤ 0xFAFF) ∨ (0xFF00 ≤ n ∧ n ≤ 0xFF60) ∨
      (0x1F300 ≤ n ∧ n ≤ 0x1FAFF) then 2
  else 1

/-- Display width of a character list: the sum of per-character widths. -/
def wcswidthL (cs : List Char) : Nat := (cs.map wcwidth).sum

/-- Source `wcswidth(s)`: total display width of a string. -/
def wcswidth (s : String) : Nat := wcswidthL s.data

/-- The `for ch in s` loop of `truncate_display`: accumulate characters while
`width + w` does not exceed `max_width - 3`, else append `...` and stop.
Widths are compared as Python integers, so `max_width - 3` may be negative. -/
def truncGo (maxW : Int) : List Char → List Char → Int → List Char
| [], out, _ => out
| ch :: rest, out, width =>
  let w : Int := wcwidth ch
  if width + w > maxW - 3 then out ++ ['.', '.', '.']
  else truncGo maxW rest (out ++ [ch]) (width + w)

/-- Model of `truncate_display(s, max_width=60)`: return `s` unchanged when it fits,
otherwise run the greedy accumulation loop. -/
def truncate_display (s : String) (maxW : Int := 60) : String :=
  if (wcswidth s : Int) ≤ maxW then s else ⟨truncGo maxW s.data [] 0⟩

theorem wcswidthL_append (a b : List Char) :
    wcswidthL (a ++ b) = wcswidthL a + wcswidthL b := by
  simp [wcswidthL]

theorem wcswidthL_ellipsis : wcswidthL ['.', '.', '.'] = 3 := by decide

/-- If the remaining characters overflow the reserved budget `maxW - 3`, the
loop always emits the ellipsis, and the kept prefix stays within the
reserve. -/
theorem truncGo_overflow (maxW : Int) :
    ∀ (chars out : List Char) (width : Int),
      width ≤ maxW - 3 →
      maxW - 3 < width + (wcswidthL chars : Int) →
      ∃ t, truncGo maxW chars out width = out ++ t ++ ['.', '.', '.'] ∧
        width + (wcswidthL t : Int) ≤ maxW - 3 := by
  intro chars
  induction chars with
  | nil =>
    intro out width hle hgt
    simp [wcswidthL] at hgt
    omega
  | cons c rest ih =>
    intro out width hle hgt
    by_cases hbr : width + (wcwidth c : Int) > maxW - 3
    · refine ⟨[], ?_, ?_⟩
      · simp [truncGo, hbr]
      · simpa [wcswidthL] using hle
    · push_neg at hbr
      have hgt' : maxW - 3 < width + (wcwidth c : Int) + (wcswidthL rest : Int) := by
        have : wcswidthL (c :: rest) = wcwidth c + wcswidthL rest := by
          simp [wcswidthL]
        rw [this] at hgt
        push_cast at hgt ⊢
        omega
      obtain ⟨t, ht, hw⟩ := ih (out ++ [c]) (width + wcwidth c) hbr hgt'
      refine ⟨c :: t, ?_, ?_⟩
      · rw [truncGo]
        simp only [not_lt.mpr, gt_iff_lt]
        rw [if_neg (by push_neg; exact hbr)]
        simpa using ht
      · have : wcswidthL (c :: t) = wcwidth c + wcswidthL t := by simp [wcswidthL]
        rw [this]
        push_cast at hw ⊢
        omega

/-- When the first character already overflows the reserve `maxW - 3` (in
particular whenever `maxW < 3`, where the reserve is negative), the loop
emits just the ellipsis. -/
theorem truncGo_first_over (maxW : Int) (c : Char) (cs : List Char)
    (h : maxW - 3 < (0 : Int) + (wcwidth c : Int)) :
    truncGo maxW (c :: cs) [] 0 = ['.', '.', '.'] := by
  have h' : maxW - 3 < (wcwidth c : Int) := by omega
  simp [truncGo, h']

theorem truncate_display_first_over (s : String) (b : Int)
    (hnf : b < (wcswidth s : Int)) (c : Char) (cs : List Char)
    (hsd : s.data = c :: cs) (h : b - 3 < (0 : Int) + (wcwidth c : Int)) :
    truncate_display s b = "..." := by
  unfold truncate_display
  rw [if_neg (not_le.mpr hnf), hsd, truncGo_first_over _ _ _ h]

/-- C3: with the default budget 60, a string whose total display width is at
most 60 is returned unchanged by `truncate_display`; a string whose display
width exceeds 60 is truncated to a result of display width at most 60 ending
in the literal ellipsis `...`. -/
theorem truncation_budget_law (s : String) :
    ((wcswidth s : Int) ≤ 60 → truncate_display s = s) ∧
    (60 < (wcswidth s : Int) →
      (wcswidth (truncate_display s) : Int) ≤ 60 ∧
      ∃ t, (truncate_display s).data = t ++ ['.', '.', '.']) := by
  constructor
  · intro h
    simp [truncate_display, h]
  · intro h
    have hnf : ¬ ((wcswidth s : Int) ≤ 60) := not_le.mpr h
    have h0 : (0 : Int) ≤ 60 - 3 := by norm_num
    have hov : (60 : Int) - 3 < 0 + (wcswidthL s.data : Int) := by
      unfold wcswidth at h; omega
    obtain ⟨t, ht, hw⟩ := truncGo_overflow 60 s.data [] 0 h0 hov
    simp only [List.nil_append] at ht
    have hres : truncate_display s = ⟨t ++ ['.', '.', '.']⟩ := by
      unfold truncate_display
      rw [if_neg hnf]
      exact congrArg String.mk ht
    refine ⟨?_, t, by rw [hres]⟩
    rw [hres]
    show ((wcswidthL (t ++ ['.', '.', '.']) : Int)) ≤ 60
    rw [wcswidthL_append, wcswidthL_ellipsis]
    push_cast at hw ⊢
    omega

/-- Witness for C3 at the concrete strings `"hello"` (fits) and a 64-column
string (overflows). -/
theorem truncation_budget_law_witness :
    truncate_display "hello" = "hello" ∧
    (wcswidth (truncate_display
        "0123456789012345678901234567890123456789012345678901234567890123") : Int) ≤ 60 ∧
    ∃ t, (truncate_display
        "0123456789012345678901234567890123456789012345678901234567890123").data =
      t ++ ['.', '.', '.'] := by
  refine ⟨(truncation_budget_law "hello").1 (by decide), ?_⟩
  exact (truncation_budget_law
    "0123456789012345678901234567890123456789012345678901234567890123").2 (by decide)

/-- C8: truncating twice with the same budget equals truncating once, for
every string and every (integer) budget. -/
theorem truncation_idempotent (s : String) (b : Int) :
    truncate_display (truncate_display s b) b = truncate_display s b := by
  by_cases hfit : (wcswidth s : Int) ≤ b
  · have h1 : truncate_display s b = s := by simp [truncate_display, hfit]
    rw [h1, h1]
  · by_cases hb : 3 ≤ b
    · have h0 : (0 : Int) ≤ b - 3 := by omega
      have hov : b - 3 < 0 + (wcswidthL s.data : Int) := by
        unfold wcswidth at hfit; omega
      obtain ⟨t, ht, hw⟩ := truncGo_overflow b s.data [] 0 h0 hov
      simp only [List.nil_append] at ht
      have hres : truncate_display s b = ⟨t ++ ['.', '.', '.']⟩ := by
        unfold truncate_display
        rw [if_neg hfit]
        exact congrArg String.mk ht
      rw [hres]
      have hwid : ((wcswidth ⟨t ++ ['.', '.', '.']⟩ : Int)) ≤ b := by
        show ((wcswidthL (t ++ ['.', '.', '.']) : Int)) ≤ b
        rw [wcswidthL_append, wcswidthL_ellipsis]
        push_cast at hw ⊢
        omega
      simp [truncate_display, hwid]
    · push_neg at hb
      have hnf : b < (wcswidth s : Int) := not_le.mp hfit
      cases hsd : s.data with
      | nil =>
        have hzero : wcswidth s = 0 := by unfold wcswidth; rw [hsd]; rfl
        have hres : truncate_display s b = "" := by
          unfold truncate_display
          rw [if_neg hfit, hsd]
          rfl
        rw [hres]
        have hb0 : ¬ ((wcswidth "" : Int) ≤ b) := by
          rw [hzero] at hnf
          simpa [wcswidth, wcswidthL] using hnf
        unfold truncate_display
        rw [if_neg hb0]
        rfl
      | cons c cs =>
        have hres : truncate_display s b = "..." :=
          truncate_display_first_over s b hnf c cs hsd
            (by have : (0 : Int) ≤ (wcwidth c : Int) := Int.ofNat_nonneg _; omega)
        rw [hres]
        have h3 : (wcswidth "..." : Int) = 3 := by decide
        have hnf2 : ¬ ((wcswidth "..." : Int) ≤ b) := by omega
        apply truncate_display_first_over "..." b (by omega) '.' ['.', '.']
          (by decide)
          (by have : (wcwidth '.' : Int) = 1 := by decide
              omega)

/-- C6 fails as stated: with budget 2, the non-fitting string `"abcd"` is
truncated to `"..."`, not to the empty string (Python's `max_width - 3` is
negative, so the ellipsis branch still fires on the first character). -/
theorem truncate_small_budget_claim_false :
    ¬ (truncate_display "abcd" 2 = "") := by decide

/-- C6 amended: for a string that does not fit its budget, a budget below 3
yields exactly the ellipsis `"..."` whenever the string is nonempty (the
empty string, which can fail to fit only a negative budget, yields `""`); and
with budget at least 3, if the first character's width already exceeds
`budget - 3`, the result is just the ellipsis with no content characters. -/
theorem truncate_small_budget (s : String) (b : Int)
    (hnf : b < (wcswidth s : Int)) :
    (b < 3 → s ≠ "" → truncate_display s b = "...") ∧
    (3 ≤ b → ∀ c rest, s.data = c :: rest → b - 3 < (wcwidth c : Int) →
      truncate_display s b = "...") := by
  constructor
  · intro hb hne
    cases hsd : s.data with
    | nil =>
      exact absurd (by cases s with
        | mk l => cases hsd; rfl) hne
    | cons c cs =>
      exact truncate_display_first_over s b hnf c cs hsd
        (by have : (0 : Int) ≤ (wcwidth c : Int) := Int.ofNat_nonneg _; omega)
  · intro _ c rest hsd hc
    exact truncate_display_first_over s b hnf c rest hsd (by omega)

/-- Witness for C6 (amended) at `"abcd"` with budget 2 and `"🚀🚀"` with
budget 3. -/
theorem truncate_small_budget_witness :
    truncate_display "abcd" 2 = "..." ∧ truncate_display "🚀🚀" 3 = "..." := by
  constructor
  · exact (truncate_small_budget "abcd" 2 (by decide)).1 (by decide) (by decide)
  · exact (truncate_small_budget "🚀🚀" 3 (by decide)).2 (by decide)
      '🚀' ['🚀'] (by decide) (by decide)

/-- Children pushed for a mapping node: `stack.append((v, pth + [k]))` for
each entry `k, v` in insertion order. -/
def mapChildren (pth : List Seg) (kvs : List (String × Yaml)) :
    List (List Seg × Yaml) :=
  kvs.map fun kv => (pth ++ [Seg.key kv.1], kv.2)

/-- Children pushed for a sequence node: `stack.append((item, pth + [i]))`
for `i, item in enumerate(node)`, indexing from `i`. -/
def seqChildren (pth : List Seg) : Nat → List Yaml → List (List Seg × Yaml)
| _, [] => []
| i, x :: xs => (pth ++ [Seg.idx i], x) :: seqChildren pth (i + 1) xs

mutual

/-- Number of nodes in a tree (termination measure for the work-list loop). -/
def sizeY : Yaml → Nat
| Yaml.map kvs => 1 + sizeM kvs
| Yaml.seq xs => 1 + sizeS xs
| Yaml.scalar _ => 1
termination_by y => sizeOf y

/-- Total node count of a mapping's values. -/
def sizeM : List (String × Yaml) → Nat
| [] => 0
| (_, v) :: rest => sizeY v + sizeM rest
termination_by l => sizeOf l

/-- Total node count of a sequence's items. -/
def sizeS : List Yaml → Nat
| [] => 0
| x :: rest => sizeY x + sizeS rest
termination_by l => sizeOf l

end

/-- Termination measure for the work-list loop: total node count of the
trees still on the stack. -/
def stackMeasure (st : List (List Seg × Yaml)) : Nat :=
  (st.map fun p => sizeY p.2).sum

theorem stackMeasure_append (a b : List (List Seg × Yaml)) :
    stackMeasure (a ++ b) = stackMeasure a + stackMeasure b := by
  simp [stackMeasure]

theorem stackMeasure_reverse (a : List (List Seg × Yaml)) :
    stackMeasure a.reverse = stackMeasure a := by
  simp [stackMeasure, List.map_reverse, List.sum_reverse]

theorem stackMeasure_cons (p : List Seg) (y : Yaml)
    (rest : List (List Seg × Yaml)) :
    stackMeasure ((p, y) :: rest) = sizeY y + stackMeasure rest := by
  simp [stackMeasure]

theorem stackMeasure_mapChildren (pth : List Seg)
    (kvs : List (String × Yaml)) :
    stackMeasure (mapChildren pth kvs) = sizeM kvs := by
  induction kvs with
  | nil => simp [mapChildren, stackMeasure, sizeM]
  | cons kv t ih =>
    cases kv with
    | mk k v =>
      rw [show mapChildren pth ((k, v) :: t) =
          (pth ++ [Seg.key k], v) :: mapChildren pth t from rfl,
        stackMeasure_cons, ih, sizeM]

theorem stackMeasure_seqChildren (pth : List Seg) (i : Nat) (xs : List Yaml) :
    stackMeasure (seqChildren pth i xs) = sizeS xs := by
  induction xs generalizing i with
  | nil => simp [seqChildren, stackMeasure, sizeS]
  | cons x t ih =>
    rw [seqChildren, stackMeasure_cons, ih, sizeS]

/-- The `while stack:` loop of `flatten`.  The Python stack's top is the list
head here; pushing children in order and popping last-in-first-out means the
reversed child list is prepended.  Mappings push one child per entry (path
extended by the key), sequences one child per item (path extended by the
index), and any other node is yielded as a `(path, scalar)` entry. -/
def flattenLoop : List (List Seg × Yaml) → List (List Seg × Scalar)
| [] => []
| (pth, Yaml.map kvs) :: rest =>
  flattenLoop ((mapChildren pth kvs).reverse ++ rest)
| (pth, Yaml.seq xs) :: rest =>
  flattenLoop ((seqChildren pth 0 xs).reverse ++ rest)
| (pth, Yaml.scalar s) :: rest => (pth, s) :: flattenLoop rest
termination_by st => stackMeasure st
decreasing_by
· rw [stackMeasure_append, stackMeasure_reverse, stackMeasure_mapChildren,
    stackMeasure_cons, sizeY]
  omega
· rw [stackMeasure_append, stackMeasure_reverse, stackMeasure_seqChildren,
    stackMeasure_cons, sizeY]
  omega
· rw [stackMeasure_cons, sizeY]
  omega

/-- Model of `flatten(obj, path=None)`: run the work-list loop from the singleton
stack `[(obj, path or [])]`. -/
def flatten (obj : Yaml) (path : List Seg := []) : List (List Seg × Scalar) :=
  flattenLoop [(path, obj)]

mutual

/-- Reference enumeration for the specification: the leaves under a node in
document order, each with its full key-path (one entry per leaf reachable
from the node). -/
def leavesY (pth : List Seg) : Yaml → List (List Seg × Scalar)
| Yaml.map kvs => leavesM pth kvs
| Yaml.seq xs => leavesS pth 0 xs
| Yaml.scalar s => [(pth, s)]
termination_by y => sizeOf y

/-- Document-order leaves below a mapping's entries. -/
def leavesM (pth : List Seg) : List (String × Yaml) → List (List Seg × Scalar)
| [] => []
| (k, v) :: rest => leavesY (pth ++ [Seg.key k]) v ++ leavesM pth rest
termination_by l => sizeOf l

/-- Document-order leaves below a sequence's items, indexed from `i`. -/
def leavesS (pth : List Seg) : Nat → List Yaml → List (List Seg × Scalar)
| _, [] => []
| i, x :: xs => leavesY (pth ++ [Seg.idx i]) x ++ leavesS pth (i + 1) xs
termination_by _ l => sizeOf l

end

/-- Leaves of one stack entry in the order the loop emits them. -/
def revLeaves (p : List Seg × Yaml) : List (List Seg × Scalar) :=
  (leavesY p.1 p.2).reverse

theorem mapChildren_revLeaves (pth : List Seg) (kvs : List (String × Yaml)) :
    ((mapChildren pth kvs).reverse.map revLeaves).flatten =
      (leavesM pth kvs).reverse := by
  induction kvs with
  | nil => simp [mapChildren, leavesM]
  | cons kv t ih =>
    cases kv with
    | mk k v =>
      simp [mapChildren, leavesM, List.reverse_append] at ih ⊢
      simp [revLeaves, ih]

theorem seqChildren_revLeaves (pth : List Seg) (i : Nat) (xs : List Yaml) :
    ((seqChildren pth i xs).reverse.map revLeaves).flatten =
      (leavesS pth i xs).reverse := by
  induction xs generalizing i with
  | nil => simp [seqChildren, leavesS]
  | cons x t ih =>
    have ih' := ih (i + 1)
    simp [seqChildren, leavesS, List.reverse_append, revLeaves] at ih' ⊢
    simp [ih']

/-- The work-list loop emits, for each stack entry in order, that entry's
leaves in reversed document order. -/
theorem flattenLoop_eq (st : List (List Seg × Yaml)) :
    flattenLoop st = (st.map revLeaves).flatten := by
  induction st using flattenLoop.induct with
  | case1 => simp [flattenLoop]
  | case2 pth kvs rest ih =>
    rw [flattenLoop, ih, List.map_append, List.flatten_append,
      mapChildren_revLeaves]
    simp [revLeaves, leavesY]
  | case3 pth xs rest ih =>
    rw [flattenLoop, ih, List.map_append, List.flatten_append,
      seqChildren_revLeaves]
    simp [revLeaves, leavesY]
  | case4 pth s rest ih =>
    rw [flattenLoop, ih]
    simp [revLeaves, leavesY]

/-- Theorem: `flatten` produces exactly the leaves of the tree, in reversed document
order. -/
theorem flatten_eq_reverse_leaves (obj : Yaml) (path : List Seg) :
    flatten obj path = (leavesY path obj).reverse := by
  rw [flatten, flattenLoop_eq]
  simp [revLeaves]

/-- Python `str(e)` for a path segment: the mapping key itself, or the decimal form
of the sequence index. -/
def segStr : Seg → String
| Seg.key k => k
| Seg.idx i => toString i

/-- Line 91: `".".join(str(e) for e in key_path) or "(root)"` — the dotted
key-path string, with Python's `or` replacing the falsy empty string by the
`(root)` sentinel. -/
def renderKeyPath (pth : List Seg) : String :=
  let joined := String.intercalate "." (pth.map segStr)
  if joined = "" then "(root)" else joined

/-- C1: the flattened entries are a permutation of the document-order leaf
enumeration — exactly one entry per leaf reachable from the root, no leaf
omitted, no leaf duplicated — and in particular the number of entries equals
the number of leaves. -/
theorem flatten_complete (obj : Yaml) :
    (flatten obj).Perm (leavesY [] obj) ∧
    (flatten obj).length = (leavesY [] obj).length := by
  rw [flatten_eq_reverse_leaves]
  exact ⟨List.reverse_perm _, List.length_reverse _⟩

/-- C2: flattening a bare scalar root yields exactly one entry with the empty
key-path, and the report renders the empty key-path as `(root)`. -/
theorem flatten_scalar_root (s : Scalar) :
    flatten (Yaml.scalar s) = [([], s)] ∧ renderKeyPath [] = "(root)" := by
  constructor
  · rw [flatten_eq_reverse_leaves]
    simp [leavesY]
  · decide

mutual

/-- A tree containing no scalar leaf: empty (or recursively leafless)
mappings and sequences only. -/
def noLeafY : Yaml → Bool
| Yaml.map kvs => noLeafM kvs
| Yaml.seq xs => noLeafS xs
| Yaml.scalar _ => false
termination_by y => sizeOf y

/-- No scalar leaf below any of a mapping's entries. -/
def noLeafM : List (String × Yaml) → Bool
| [] => true
| (_, v) :: rest => noLeafY v && noLeafM rest
termination_by l => sizeOf l

/-- No scalar leaf below any of a sequence's items. -/
def noLeafS : List Yaml → Bool
| [] => true
| x :: rest => noLeafY x && noLeafS rest
termination_by l => sizeOf l

end

mutual

theorem noLeaf_leavesY : ∀ (y : Yaml), noLeafY y = true →
    ∀ pth, leavesY pth y = []
| Yaml.map kvs, h, pth => by
  simp only [leavesY]
  exact noLeaf_leavesM kvs (by simpa [noLeafY] using h) pth
| Yaml.seq xs, h, pth => by
  simp only [leavesY]
  exact noLeaf_leavesS xs (by simpa [noLeafY] using h) pth 0
| Yaml.scalar s, h, pth => by simp [noLeafY] at h
termination_by y => sizeOf y

theorem noLeaf_leavesM : ∀ (kvs : List (String × Yaml)), noLeafM kvs = true →
    ∀ pth, leavesM pth kvs = []
| [], _, pth => by simp [leavesM]
| (k, v) :: rest, h, pth => by
  rw [noLeafM, Bool.and_eq_true] at h
  simp only [leavesM]
  rw [noLeaf_leavesY v h.1, noLeaf_leavesM rest h.2]
  rfl
termination_by l => sizeOf l

theorem noLeaf_leavesS : ∀ (xs : List Yaml), noLeafS xs = true →
    ∀ pth i, leavesS pth i xs = []
| [], _, pth, i => by simp [leavesS]
| x :: rest, h, pth, i => by
  rw [noLeafS, Bool.and_eq_true] at h
  simp only [leavesS]
  rw [noLeaf_leavesY x h.1, noLeaf_leavesS rest h.2]
  rfl
termination_by l => sizeOf l

end

/-- C9: the work-list flattening is a total function on finite trees (it is
defined by well-founded recursion on the stacked node count, with no depth
bound), it always yields a finite entry list whose length is the leaf count,
and empty mappings and sequences — alone or arbitrarily nested — contribute
zero entries. -/
theorem flatten_worklist_total :
    flatten (Yaml.map []) = [] ∧ flatten (Yaml.seq []) = [] ∧
    (∀ obj : Yaml, noLeafY obj = true → flatten obj = []) ∧
    (∀ obj : Yaml, (flatten obj).length = (leavesY [] obj).length) := by
  refine ⟨?_, ?_, ?_, ?_⟩
  · rw [flatten_eq_reverse_leaves]
    simp [leavesY, leavesM]
  · rw [flatten_eq_reverse_leaves]
    simp [leavesY, leavesS]
  · intro obj h
    rw [flatten_eq_reverse_leaves, noLeaf_leavesY obj h []]
    rfl
  · intro obj
    rw [flatten_eq_reverse_leaves]
    exact List.length_reverse _

/-- Witness for C9 at a nested tree of empty containers. -/
theorem flatten_worklist_total_witness :
    noLeafY (Yaml.map [("a", Yaml.seq [Yaml.map [], Yaml.seq []]),
      ("b", Yaml.map [])]) = true ∧
    flatten (Yaml.map [("a", Yaml.seq [Yaml.map [], Yaml.seq []]),
      ("b", Yaml.map [])]) = [] := by
  have h : noLeafY (Yaml.map [("a", Yaml.seq [Yaml.map [], Yaml.seq []]),
      ("b", Yaml.map [])]) = true := by
    simp [noLeafY, noLeafM, noLeafS]
  exact ⟨h, flatten_worklist_total.2.2.1 _ h⟩

/-- Python `str(value)` for a scalar leaf (line 92 stringifies before
truncating).  Python renders booleans as `True`/`False` and null as `None`;
the float, bytes, set and timestamp renderings are abstracted through their
embeddings (no observable behaviour in this development depends on them). -/
def pystr : Scalar → String
| Scalar.null => "None"
| Scalar.bool true => "True"
| Scalar.bool false => "False"
| Scalar.int n => toString n
| Scalar.float q => toString q
| Scalar.str s => s
| Scalar.bytes bs => "b" ++ toString bs
| Scalar.pyset es => toString es
| Scalar.date y m d => toString y ++ "-" ++ toString m ++ "-" ++ toString d

/-- Python `type(value).__name__` (line 98): the Python runtime type tag of a leaf. -/
def typeName : Scalar → String
| Scalar.null => "NoneType"
| Scalar.bool _ => "bool"
| Scalar.int _ => "int"
| Scalar.float _ => "float"
| Scalar.str _ => "str"
| Scalar.bytes _ => "bytes"
| Scalar.pyset _ => "set"
| Scalar.date _ _ _ => "date"

/-- Python truthiness of a terminal value: `None`, `False`, `0`, `0.0`, `""`,
the empty bytes value and the empty set are falsy; every other terminal
(including every date/datetime) is truthy. -/
def scalarTruthy : Scalar → Bool
| Scalar.null => false
| Scalar.bool b => b
| Scalar.int n => decide (n ≠ 0)
| Scalar.float q => decide (q ≠ 0)
| Scalar.str s => decide (s ≠ "")
| Scalar.bytes bs => decide (bs ≠ [])
| Scalar.pyset es => decide (es ≠ [])
| Scalar.date _ _ _ => true

/-- Python truthiness of a loaded document: containers are truthy iff
nonempty, scalars per `scalarTruthy`. -/
def yamlTruthy : Yaml → Bool
| Yaml.map kvs => !kvs.isEmpty
| Yaml.seq xs => !xs.isEmpty
| Yaml.scalar s => scalarTruthy s

/-- Model of `read_yaml` on a successfully parsed document (line 45): `yaml_loader.load(f) or {}` — a
falsy document is replaced by the empty mapping. -/
def read_yaml (doc : Yaml) : Yaml :=
  if yamlTruthy doc then doc else Yaml.map []

/-- The row list built by `tabulate_file` (lines 88–99) from an already
loaded document: one row per flattened entry, in emission order —
`[path.name, relative path, dotted key path, truncated value string, type
tag]`. -/
def fileRows (fileName relPath : String) (data : Yaml) : List (List String) :=
  (flatten data).map fun e =>
    [fileName, relPath, renderKeyPath e.1, truncate_display (pystr e.2),
      typeName e.2]

/-- Model of `tabulate_file` for a successfully parsed document: `read_yaml`
normalisation followed by row assembly. -/
def tabulate_file (fileName relPath : String) (doc : Yaml) :
    List (List String) :=
  fileRows fileName relPath (read_yaml doc)

/-- The message of `sys.exit` in `read_yaml` (line 47). -/
def parseErrMsg (path msg : String) : String :=
  "Error parsing YAML at " ++ path ++ ": " ++ msg

/-- Source `path.name`: the final component of a path string. -/
def baseName (p : String) : String := (p.splitOn "/").getLastD ""

/-- The per-file loop of `main` (lines 115–116), with each file's parser
outcome supplied by the black-box parser: tables are produced in order until
the first malformed file, whose `sys.exit` aborts the whole run with the
parse error message (later files are never processed). -/
def runFiles : List (String × Except String Yaml) →
    List (String × List (List String)) × Option String
| [] => ([], none)
| (p, Except.error e) :: _ => ([], some (parseErrMsg p e))
| (p, Except.ok d) :: rest =>
  let r := runFiles rest
  ((p, tabulate_file (baseName p) p d) :: r.1, r.2)

/-- Process exit status of the run: `sys.exit(msg)` terminates with status 1,
a completed run returns 0. -/
def runExitCode (res : List (String × List (List String)) × Option String) :
    Nat :=
  if res.2.isSome then 1 else 0

/-- C7: if any discovered file fails to parse, the run stops at the first
such file with exactly one error message naming that file's path and the
parser diagnostic, exits with non-zero status, and processes none of the
subsequent files (the tables produced are exactly those of the files before
the failure, whatever follows it). -/
theorem parse_failure_fatal (pre : List (String × Yaml)) (p e : String)
    (rest : List (String × Except String Yaml)) :
    runFiles ((pre.map fun q => (q.1, Except.ok q.2)) ++
        (p, Except.error e) :: rest) =
      (pre.map fun q => (q.1, tabulate_file (baseName q.1) q.1 q.2),
        some ("Error parsing YAML at " ++ p ++ ": " ++ e)) ∧
    runExitCode (runFiles ((pre.map fun q => (q.1, Except.ok q.2)) ++
        (p, Except.error e) :: rest)) = 1 := by
  have h : runFiles ((pre.map fun q => (q.1, Except.ok q.2)) ++
      (p, Except.error e) :: rest) =
      (pre.map fun q => (q.1, tabulate_file (baseName q.1) q.1 q.2),
        some (parseErrMsg p e)) := by
    induction pre with
    | nil => simp [runFiles]
    | cons q t ih => simp [runFiles, ih]
  rw [h]
  exact ⟨rfl, by simp [runExitCode]⟩

/-- C10 fails as stated: the safe loader's terminal universe is larger than
the five scalars the claim lists — a document that is the empty bytes value
(`!!binary ""` loads to Python `b""`) is falsy, so `load(f) or {}` replaces
it with the empty mapping and the report has zero rows, although it is a
bare scalar document different from null, `False`, `0`, `0.0` and `""`. -/
theorem read_yaml_falsy_claim_false :
    Scalar.bytes [] ≠ Scalar.null ∧ Scalar.bytes [] ≠ Scalar.bool false ∧
    Scalar.bytes [] ≠ Scalar.int 0 ∧ Scalar.bytes [] ≠ Scalar.float 0 ∧
    Scalar.bytes [] ≠ Scalar.str "" ∧
    tabulate_file "f.yaml" "f.yaml" (Yaml.scalar (Scalar.bytes [])) = [] := by
  refine ⟨by decide, by decide, by decide, by decide, by decide, ?_⟩
  have hr : read_yaml (Yaml.scalar (Scalar.bytes [])) = Yaml.map [] := rfl
  rw [tabulate_file, hr]
  simp [fileRows, flatten_eq_reverse_leaves, leavesY, leavesM]

/-- C10 amended: `read_yaml` replaces every falsy parsed document with the
empty mapping — the falsy terminals are exactly null, `False`, `0`, `0.0`,
`""`, the empty bytes value and the empty set — and a file whose whole
document is such a terminal yields zero report rows (no `(root)` entry),
while any truthy bare scalar document (including every date/datetime) yields
exactly one `(root)` row. -/
theorem read_yaml_falsy_normalization (s : Scalar) (fileName relPath : String) :
    (scalarTruthy s = false ↔
      s = Scalar.null ∨ s = Scalar.bool false ∨ s = Scalar.int 0 ∨
        s = Scalar.float 0 ∨ s = Scalar.str "" ∨
        s = Scalar.bytes [] ∨ s = Scalar.pyset []) ∧
    (scalarTruthy s = false →
      read_yaml (Yaml.scalar s) = Yaml.map [] ∧
      tabulate_file fileName relPath (Yaml.scalar s) = []) ∧
    (scalarTruthy s = true →
      tabulate_file fileName relPath (Yaml.scalar s) =
        [[fileName, relPath, "(root)", truncate_display (pystr s),
          typeName s]]) := by
  refine ⟨?_, ?_, ?_⟩
  · cases s with
    | null => simp [scalarTruthy]
    | bool b => cases b <;> simp [scalarTruthy]
    | int n => simp [scalarTruthy, decide_eq_false_iff_not]
    | float q => simp [scalarTruthy, decide_eq_false_iff_not]
    | str st => simp [scalarTruthy, decide_eq_false_iff_not]
    | bytes bs => simp [scalarTruthy, decide_eq_false_iff_not]
    | pyset es => simp [scalarTruthy, decide_eq_false_iff_not]
    | date y m d => simp [scalarTruthy]
  · intro h
    have hr : read_yaml (Yaml.scalar s) = Yaml.map [] := by
      simp [read_yaml, yamlTruthy, h]
    refine ⟨hr, ?_⟩
    rw [tabulate_file, hr]
    simp [fileRows, flatten_eq_reverse_leaves, leavesY, leavesM]
  · intro h
    have hr : read_yaml (Yaml.scalar s) = Yaml.scalar s := by
      simp [read_yaml, yamlTruthy, h]
    rw [tabulate_file, hr]
    have hroot : renderKeyPath [] = "(root)" := by decide
    simp [fileRows, flatten_eq_reverse_leaves, leavesY, hroot]

/-- Witness for C10 (amended) at the falsy scalars `0` and `b""` and the
truthy scalar `"hi"`. -/
theorem read_yaml_falsy_normalization_witness :
    tabulate_file "f.yaml" "f.yaml" (Yaml.scalar (Scalar.int 0)) = [] ∧
    tabulate_file "f.yaml" "f.yaml" (Yaml.scalar (Scalar.bytes [])) = [] ∧
    tabulate_file "f.yaml" "f.yaml" (Yaml.scalar (Scalar.str "hi")) =
      [["f.yaml", "f.yaml", "(root)", "hi", "str"]] := by
  refine ⟨((read_yaml_falsy_normalization (Scalar.int 0) "f.yaml"
    "f.yaml").2.1 (by decide)).2,
    ((read_yaml_falsy_normalization (Scalar.bytes []) "f.yaml"
    "f.yaml").2.1 (by decide)).2, ?_⟩
  rw [(read_yaml_falsy_normalization (Scalar.str "hi") "f.yaml" "f.yaml").2.2
    (by decide)]
  decide

/-- The end-to-end example document of the spec:
`{name: "🚀rocket-service", replicas: 3, tags: ["a", "b"]}`. -/
def appYaml : Yaml :=
  Yaml.map [("name", Yaml.scalar (Scalar.str "🚀rocket-service")),
    ("replicas", Yaml.scalar (Scalar.int 3)),
    ("tags", Yaml.seq [Yaml.scalar (Scalar.str "a"),
      Yaml.scalar (Scalar.str "b")])]

/-- The concrete report rows for `app.yaml`: the four leaves in the loop's
emission order, with Python type names `str` / `int`. -/
theorem appYaml_rows :
    tabulate_file "app.yaml" "app.yaml" appYaml =
      [["app.yaml", "app.yaml", "tags.1", "b", "str"],
       ["app.yaml", "app.yaml", "tags.0", "a", "str"],
       ["app.yaml", "app.yaml", "replicas", "3", "int"],
       ["app.yaml", "app.yaml", "name", "🚀rocket-service", "str"]] := by
  have hflat : flatten appYaml =
      [([Seg.key "tags", Seg.idx 1], Scalar.str "b"),
       ([Seg.key "tags", Seg.idx 0], Scalar.str "a"),
       ([Seg.key "replicas"], Scalar.int 3),
       ([Seg.key "name"], Scalar.str "🚀rocket-service")] := by
    rw [flatten_eq_reverse_leaves]
    simp [appYaml, leavesY, leavesM, leavesS]
  have hread : read_yaml appYaml = appYaml := rfl
  rw [tabulate_file, hread, fileRows, hflat]
  decide

/-- C5 fails as stated: the four rows carry the Python type names `"str"` and
`"int"` (`type(value).__name__`), not the tags `"string"` and `"integer"`
the claim names, so the claimed row multiset does not match the report. -/
theorem example_report_rows_claim_false :
    ¬ (tabulate_file "app.yaml" "app.yaml" appYaml).Perm
      [["app.yaml", "app.yaml", "name", "🚀rocket-service", "string"],
       ["app.yaml", "app.yaml", "replicas", "3", "integer"],
       ["app.yaml", "app.yaml", "tags.0", "a", "string"],
       ["app.yaml", "app.yaml", "tags.1", "b", "string"]] := by
  rw [appYaml_rows]
  decide

/-- C5 amended: the report for `app.yaml` has exactly four rows — `name` with
the unchanged value `🚀rocket-service` and type tag `"str"`, `replicas` with
value `3` and type tag `"int"`, and `tags.0` / `tags.1` with values `a` / `b`
and type tag `"str"`. -/
theorem example_report_rows :
    (tabulate_file "app.yaml" "app.yaml" appYaml).Perm
      [["app.yaml", "app.yaml", "name", "🚀rocket-service", "str"],
       ["app.yaml", "app.yaml", "replicas", "3", "int"],
       ["app.yaml", "app.yaml", "tags.0", "a", "str"],
       ["app.yaml", "app.yaml", "tags.1", "b", "str"]] ∧
    (tabulate_file "app.yaml" "app.yaml" appYaml).length = 4 := by
  rw [appYaml_rows]
  exact ⟨by decide, rfl⟩

/-- An `rglob` pattern of the shape `*<ext>` matches a path iff the path ends
with `<ext>`. -/
def hasExt (p ext : String) : Bool := decide (ext.data <:+ p.data)

/-- Model of `find_yaml_files` (lines 37-39): every path under the root matching
`*.yaml`, then every path matching `*.yml`, over the black-box recursive
enumeration `fs` of the files beneath the root. -/
def find_yaml_files (fs : List String) : List String :=
  fs.filter (fun p => hasExt p ".yaml") ++ fs.filter (fun p => hasExt p ".yml")

/-- Model of `sorted(find_yaml_files(root))` (line 112): the processing order of the
orchestrator, lexicographic by full path string. -/
def sortedFiles (fs : List String) : List String :=
  List.insertionSort (· ≤ ·) (find_yaml_files fs)

theorem not_yaml_and_yml (p : String) :
    ¬ (hasExt p ".yaml" = true ∧ hasExt p ".yml" = true) := by
  rintro ⟨h1, h2⟩
  rw [hasExt, decide_eq_true_eq] at h1 h2
  rcases List.suffix_or_suffix_of_suffix h1 h2 with h | h
  · exact absurd h (by decide)
  · exact absurd h (by decide)

/-- C4: over any duplicate-free enumeration of the files beneath the root,
the processed file list contains exactly the paths ending in `.yaml` or
`.yml` — each exactly once — in sorted (lexicographic by full path) order,
and the sorted result is identical for any other enumeration order of the
same tree. -/
theorem discovery_sorted_deterministic (fs : List String) (hnd : fs.Nodup) :
    (∀ p, p ∈ sortedFiles fs ↔
      p ∈ fs ∧ (hasExt p ".yaml" = true ∨ hasExt p ".yml" = true)) ∧
    (sortedFiles fs).Nodup ∧
    List.Sorted (· ≤ ·) (sortedFiles fs) ∧
    (∀ fs', fs.Perm fs' → sortedFiles fs' = sortedFiles fs) := by
  have hperm : (sortedFiles fs).Perm (find_yaml_files fs) :=
    List.perm_insertionSort _ _
  refine ⟨?_, ?_, List.sorted_insertionSort _ _, ?_⟩
  · intro p
    rw [hperm.mem_iff, find_yaml_files, List.mem_append, List.mem_filter,
      List.mem_filter]
    constructor
    · rintro (⟨hm, he⟩ | ⟨hm, he⟩)
      · exact ⟨hm, Or.inl he⟩
      · exact ⟨hm, Or.inr he⟩
    · rintro ⟨hm, he | he⟩
      · exact Or.inl ⟨hm, he⟩
      · exact Or.inr ⟨hm, he⟩
  · rw [hperm.nodup_iff, find_yaml_files]
    refine List.Nodup.append (hnd.filter _) (hnd.filter _) ?_
    intro p hp1 hp2
    rw [List.mem_filter] at hp1 hp2
    exact not_yaml_and_yml p ⟨hp1.2, hp2.2⟩
  · intro fs' hp
    have hfp : (find_yaml_files fs').Perm (find_yaml_files fs) :=
      ((hp.symm.filter _).append (hp.symm.filter _))
    exact List.eq_of_perm_of_sorted
      (((List.perm_insertionSort _ _).trans hfp).trans
        (List.perm_insertionSort _ _).symm)
      (List.sorted_insertionSort _ _) (List.sorted_insertionSort _ _)

/-- Witness for C4 at a concrete three-file tree. -/
theorem discovery_sorted_deterministic_witness :
    ("ci.yml" ∈ sortedFiles ["deploy/app.yaml", "notes.txt", "ci.yml"]) ∧
    (sortedFiles ["deploy/app.yaml", "notes.txt", "ci.yml"]).Nodup ∧
    List.Sorted (· ≤ ·)
      (sortedFiles ["deploy/app.yaml", "notes.txt", "ci.yml"]) := by
  have h := discovery_sorted_deterministic
    ["deploy/app.yaml", "notes.txt", "ci.yml"] (by decide)
  exact ⟨(h.1 "ci.yml").mpr ⟨by decide, Or.inr (by decide)⟩, h.2.1, h.2.2.1⟩

end YamlLog
